import Mathlib

/-!
Verification development for the AudioCompare Wang fingerprint matcher
(`Wang.py`).  The source is shallowly embedded: spectra are lists of
rational magnitudes, fingerprints are the integer tuples produced by
the per-bucket argmax, the hash table is an association list from
fingerprints to chunk-index lists, and the matcher's offset histogram
is the multiset of `c1 - c2` observations together with its count
function.  Failures (numpy's ValueError on an empty argmax, Python's
ZeroDivisionError) are modelled with `Except`.
-/

namespace AudioCompare

/-- Constant from Wang.py line 12. -/
def BUCKET_SIZE : ℕ := 20

/-- Constant from Wang.py line 13. -/
def BUCKETS : ℕ := 4

/-- Constant from Wang.py line 14: `BUCKET_SIZE * BUCKETS`. -/
def UPPER_LIMIT : ℕ := BUCKET_SIZE * BUCKETS

/-- Constant from Wang.py line 16. -/
def NORMAL_CHUNK_SIZE : ℚ := 1024

/-- Constant from Wang.py line 17. -/
def NORMAL_SAMPLE_RATE : ℚ := 44100

/-- Constant from Wang.py line 20. -/
def SCORE_THRESHOLD : ℚ := 0

/-- Runtime failures of the Python code: `zeroDivisionError` is Python's
ZeroDivisionError, `valueError` is numpy's ValueError raised by `argmax`
on an empty slice, and `externalError` stands for any exception raised
by the external collaborators (`InputFile`, `FFT.series`). -/
inductive PyError where
  | zeroDivisionError
  | valueError
  | externalError
deriving DecidableEq, Repr

/-- Index of the first occurrence of the maximum element, `none` on the
empty list: the semantics of `np.argmax` used at Wang.py line 37 (numpy
raises ValueError on an empty array, returned here as `none`). -/
def argmaxList : List ℚ → Option ℕ
  | [] => none
  | x :: t =>
    match argmaxList t with
    | none => some 0
    | some j =>
      if hj : j < t.length then
        if x < t[j] then some (j + 1) else some 0
      else some 0

/-- The slice `spectrum[bucket*BUCKET_SIZE : (bucket+1)*BUCKET_SIZE]` of
Wang.py line 36 (Python slicing clamps at the list's end, as drop/take do). -/
def bucketVals (spectrum : List ℚ) (bucket : ℕ) : List ℚ :=
  (spectrum.drop (bucket * BUCKET_SIZE)).take BUCKET_SIZE

/-- The inner loop of `_bucket_winners` (Wang.py lines 33-38) run over a
list of bucket numbers: for each bucket take the argmax of its slice and
re-offset it by the slice start; numpy's ValueError on an empty slice
aborts the whole computation. -/
def winnersFrom (spectrum : List ℚ) : List ℕ → Except PyError (List ℕ)
  | [] => .ok []
  | b :: bs =>
    match argmaxList (bucketVals spectrum b) with
    | none => .error .valueError
    | some r =>
      match winnersFrom spectrum bs with
      | .ok rest => .ok ((r + b * BUCKET_SIZE) :: rest)
      | .error e => .error e

/-- The fingerprint of one chunk: Wang.py lines 33-38 with
`bucket in range(BUCKETS)`. -/
def chunkWinners (spectrum : List ℚ) : Except PyError (List ℕ) :=
  winnersFrom spectrum (List.range BUCKETS)

/-- `_bucket_winners` (Wang.py lines 23-41): one fingerprint tuple per
chunk, in chunk order. -/
def bucketWinners : List (List ℚ) → Except PyError (List (List ℕ))
  | [] => .ok []
  | c :: cs =>
    match chunkWinners c with
    | .error e => .error e
    | .ok w =>
      match bucketWinners cs with
      | .ok rest => .ok (w :: rest)
      | .error e => .error e

/-- A fingerprint: the tuple of per-bucket winning indices built at
Wang.py line 52 (`tuple(max_index[chunk])`). -/
abbrev Fp := List ℕ

/-- The hash table of `_hash` (Wang.py lines 50-55): an association list
from fingerprints to the list of chunk numbers, standing for the Python
defaultdict. -/
abbrev HashT := List (Fp × List ℕ)

/-- Dictionary lookup on the association list (first matching key). -/
def lookupFp (k : Fp) : HashT → Option (List ℕ)
  | [] => none
  | p :: t => if p.1 = k then some p.2 else lookupFp k t

/-- Lookup defaulting to the empty chunk list for absent keys. -/
def lookupD (k : Fp) (h : HashT) : List ℕ := (lookupFp k h).getD []

/-- The keys of the hash table. -/
def keysOf (h : HashT) : List Fp := h.map Prod.fst

/-- A well-formed dictionary has no duplicate keys; `_hash` only
produces such tables. -/
abbrev NodupKeys (h : HashT) : Prop := (keysOf h).Nodup

/-- The `itertools.product` loop body of Wang.py lines 152-154: all
offsets `c1 - c2` for `(c1, c2)` in the cartesian product. -/
def pairProd (cs1 cs2 : List ℕ) : List ℤ :=
  cs1.flatMap (fun c1 => cs2.map (fun (c2 : ℕ) => (c1 : ℤ) - (c2 : ℤ)))

/-- Contribution of one entry of `hash1` to the offsets dict: Wang.py
lines 150-154 (`if h1 in hash2` guards the product loop). -/
def entryOffsets (h2 : HashT) (p : Fp × List ℕ) : List ℤ :=
  match lookupFp p.1 h2 with
  | some cs2 => pairProd p.2 cs2
  | none => []

/-- The full stream of `offsets[offset] += 1` increments performed by
the loop at Wang.py lines 150-154, in loop order. -/
def offsetsList (h1 h2 : HashT) : List ℤ := h1.flatMap (entryOffsets h2)

/-- The `offsets` defaultdict as a count function: how many times each
offset was observed. -/
def histogram (h1 h2 : HashT) (o : ℤ) : ℕ := (offsetsList h1 h2).count o

/-- Maximum multiplicity of an element of `l`, and `0` on the empty
list: `max(offsets.viewvalues())` guarded by `len(offsets) != 0`
(Wang.py lines 166-169; taking the maximum over every occurrence
instead of over the distinct keys does not change it). -/
def listMaxCount (l : List ℤ) : ℕ := (l.map (fun o => l.count o)).foldr max 0

/-- `max_offset` of Wang.py lines 166-169 for two fingerprint tables. -/
def maxOffsetOf (h1 h2 : HashT) : ℕ := listMaxCount (offsetsList h1 h2)

/-- The tail of `Wang.match` (Wang.py lines 161-185) on two
`(file_len, hash)` fingerprint results, with `debug` false: the
score comparison, with Python's ZeroDivisionError surfacing when the
shorter file has length zero. -/
def matchBool (r1 r2 : ℚ × HashT) : Except PyError Bool :=
  let maxOff := maxOffsetOf r1.2 r2.2
  let minLen := min r1.1 r2.1
  if minLen = 0 then .error .zeroDivisionError
  else if (maxOff : ℚ) / minLen > SCORE_THRESHOLD then .ok true else .ok false

/-- Truncation toward zero: the semantics of Python's `int()` applied
to a real number (Wang.py line 76). -/
def ratTrunc (q : ℚ) : ℤ := if q < 0 then -⌊-q⌋ else ⌊q⌋

/-- The chunk-length computation of Wang.py lines 75-76:
`int(NORMAL_CHUNK_SIZE / (NORMAL_SAMPLE_RATE / sample_rate))`, with the
ZeroDivisionError a zero sample rate raises at line 75. -/
def chunkSizeOf (sr : ℚ) : Except PyError ℤ :=
  if sr = 0 then .error .zeroDivisionError
  else .ok (ratTrunc (NORMAL_CHUNK_SIZE / (NORMAL_SAMPLE_RATE / sr)))

/-- Rounding half away from zero: the semantics of Python's `round`,
used only to state the spec's formula. -/
def ratRound (q : ℚ) : ℤ := if q < 0 then -⌊-q + 1 / 2⌋ else ⌊q + 1 / 2⌋

/-- The chunk-length formula exactly as the spec words it
(`round(NORMAL_CHUNK_SIZE × NORMAL_SAMPLE_RATE / sample_rate)`, rounded
to an integer at least 1), kept separate so it can be compared with the
code's `chunkSizeOf`. -/
def chunkSizeSpec (sr : ℚ) : ℤ := max 1 (ratRound (NORMAL_CHUNK_SIZE * NORMAL_SAMPLE_RATE / sr))

/-- The step of `_hash` at Wang.py line 53: `hashes[hash].append(chunk)`
on a defaultdict, preserving key insertion order. -/
def addChunk : HashT → Fp → ℕ → HashT
  | [], fp, c => [(fp, [c])]
  | p :: t, fp, c => if p.1 = fp then (p.1, p.2 ++ [c]) :: t else p :: addChunk t fp c

/-- The loop of `_hash` (Wang.py lines 51-53) with explicit chunk
counter. -/
def buildHashAux : List Fp → ℕ → HashT → HashT
  | [], _, h => h
  | fp :: t, i, h => buildHashAux t (i + 1) (addChunk h fp i)

/-- `_hash` (Wang.py lines 44-55): group chunk numbers by fingerprint. -/
def buildHash (fps : List Fp) : HashT := buildHashAux fps 0 []

/-- The chunk indices at which fingerprint `k` occurs in `fps`, starting
the numbering at `i`; reference list used to specify `buildHash`. -/
def occIdx (k : Fp) : List Fp → ℕ → List ℕ
  | [], _ => []
  | fp :: t, i => if fp = k then i :: occIdx k t (i + 1) else occIdx k t (i + 1)

/-- Environment of `_file_fingerprint`: what the external collaborators
(`InputFile`, `FFT`) report for one file.  `series` is the spectrum
provider, indexed by the chunk length passed to `FFT`; it may fail,
standing for any exception escaping `FFT.series()`. -/
structure FileEnv where
  sampleRate : ℚ
  totalSamples : ℕ
  series : ℤ → Except PyError (List (List ℚ))

/-- Outcome of one `_file_fingerprint` run: the returned value or the
escaping exception, together with whether `file.close()` (Wang.py
line 81) was reached on that path. -/
structure FpRun where
  result : Except PyError (ℚ × HashT)
  closed : Bool

/-- `_file_fingerprint` (Wang.py lines 58-100) with the file-handle
lifecycle made explicit: the chunk size and the spectrum series are
computed before `file.close()`, the fingerprint extraction and hashing
after it.  There is no try/finally in the source, so an error before
line 81 exits with the file still open. -/
def fileFingerprint (env : FileEnv) : FpRun :=
  match chunkSizeOf env.sampleRate with
  | .error e => ⟨.error e, false⟩
  | .ok cs =>
    match env.series cs with
    | .error e => ⟨.error e, false⟩
    | .ok ser =>
      let fileLen := (env.totalSamples : ℚ) / env.sampleRate
      match bucketWinners ser with
      | .error e => ⟨.error e, true⟩
      | .ok winners => ⟨.ok (fileLen, buildHash winners), true⟩

/-- A fingerprinting environment whose spectrum provider fails, standing
for an exception escaping `FFT.series()`. -/
def failEnv : FileEnv where
  sampleRate := 44100
  totalSamples := 0
  series := fun _ => .error .externalError

/-- The cartesian product `itertools.product(cs1, cs2)` of two
chunk-index lists, in iteration order. -/
def listProd (cs1 cs2 : List ℕ) : List (ℕ × ℕ) :=
  cs1.flatMap (fun c1 => cs2.map (fun c2 => (c1, c2)))

/-- How many pairs of the cartesian product of two chunk-index lists
realize the offset `o`: the specification-side count of observations
`c1 - c2 = o` contributed by one shared fingerprint key. -/
def countPairsAt (cs1 cs2 : List ℕ) (o : ℤ) : ℕ :=
  ((listProd cs1 cs2).filter (fun q => (q.1 : ℤ) - (q.2 : ℤ) = o)).length

/-- The set of keys of a hash table. -/
def keyFinset (h : HashT) : Finset Fp := (keysOf h).toFinset

theorem argmaxList_ne_none (x : ℚ) (t : List ℚ) : argmaxList (x :: t) ≠ none := by
  intro hcon
  rw [argmaxList] at hcon
  split at hcon
  · exact Option.noConfusion hcon
  · split at hcon
    · split at hcon <;> exact Option.noConfusion hcon
    · exact Option.noConfusion hcon

theorem argmaxList_spec :
    ∀ (l : List ℚ) (j : ℕ), argmaxList l = some j →
      ∃ hj : j < l.length,
        (∀ k (hk : k < l.length), l[k] ≤ l[j]) ∧
        (∀ k (hk : k < l.length), k < j → l[k] < l[j])
  | [], j, h => by simp [argmaxList] at h
  | x :: t, j, h => by
    rw [argmaxList] at h
    split at h
    next ht =>
      obtain rfl : 0 = j := by injection h
      have htnil : t = [] := by
        cases t with
        | nil => rfl
        | cons y t' => exact absurd ht (argmaxList_ne_none y t')
      subst htnil
      refine ⟨by simp, ?_, ?_⟩
      · intro k hk
        have hk0 : k = 0 := by simpa using hk
        subst hk0
        exact le_refl _
      · intro k hk hk0
        omega
    next j' ht =>
      obtain ⟨hj', hle, hlt⟩ := argmaxList_spec t j' ht
      rw [dif_pos hj'] at h
      by_cases hx : x < t[j']
      · rw [if_pos hx] at h
        obtain rfl : j' + 1 = j := by injection h
        refine ⟨by simpa using Nat.succ_lt_succ hj', ?_, ?_⟩
        · intro k hk
          cases k with
          | zero => simpa using le_of_lt hx
          | succ k' =>
            have hk' : k' < t.length := by simpa using hk
            simpa using hle k' hk'
        · intro k hk hklt
          cases k with
          | zero => simpa using hx
          | succ k' =>
            have hk' : k' < t.length := by simpa using hk
            have hkj : k' < j' := by omega
            simpa using hlt k' hk' hkj
      · rw [if_neg hx] at h
        obtain rfl : 0 = j := by injection h
        refine ⟨by simp, ?_, ?_⟩
        · intro k hk
          cases k with
          | zero => exact le_refl _
          | succ k' =>
            have hk' : k' < t.length := by simpa using hk
            have h1 : t[k'] ≤ t[j'] := hle k' hk'
            have h2 : t[j'] ≤ x := le_of_not_lt hx
            simpa using le_trans h1 h2
        · intro k hk hklt
          omega

theorem argmaxList_eq_none_iff (l : List ℚ) : argmaxList l = none ↔ l = [] := by
  cases l with
  | nil => simp [argmaxList]
  | cons x t =>
    constructor
    · intro h
      exact absurd h (argmaxList_ne_none x t)
    · intro h
      exact List.noConfusion h

theorem bucketVals_eq_nil_iff (s : List ℚ) (b : ℕ) :
    bucketVals s b = [] ↔ s.length ≤ b * BUCKET_SIZE := by
  unfold bucketVals
  rw [List.take_eq_nil_iff, List.drop_eq_nil_iff]
  simp [BUCKET_SIZE]

theorem winnersFrom_ok_spec (s : List ℚ) :
    ∀ (bs : List ℕ) (w : List ℕ), winnersFrom s bs = .ok w →
      w.length = bs.length ∧
      ∀ i (hi : i < bs.length) (hw : i < w.length),
        ∃ r, argmaxList (bucketVals s bs[i]) = some r ∧ w[i] = r + bs[i] * BUCKET_SIZE
  | [], w, h => by
    rw [winnersFrom] at h
    obtain rfl : ([] : List ℕ) = w := by injection h
    refine ⟨rfl, ?_⟩
    intro i hi
    simp at hi
  | b :: bs, w, h => by
    rw [winnersFrom] at h
    split at h
    · exact Except.noConfusion h
    next r hr =>
      split at h
      next rest hrest =>
        obtain rfl : (r + b * BUCKET_SIZE) :: rest = w := by injection h
        obtain ⟨hlen, hspec⟩ := winnersFrom_ok_spec s bs rest hrest
        refine ⟨by simp [hlen], ?_⟩
        intro i hi hw
        cases i with
        | zero => exact ⟨r, by simpa using hr, by simp⟩
        | succ i' =>
          have hi' : i' < bs.length := by simpa using hi
          have hw' : i' < rest.length := by simpa using hw
          obtain ⟨r', h1, h2⟩ := hspec i' hi' hw'
          exact ⟨r', by simpa using h1, by simpa using h2⟩
      next e he => exact Except.noConfusion h

theorem winnersFrom_error_iff (s : List ℚ) :
    ∀ bs : List ℕ,
      (∃ e, winnersFrom s bs = .error e) ↔ ∃ b ∈ bs, argmaxList (bucketVals s b) = none
  | [] => by
    rw [winnersFrom]
    simp
  | b :: bs => by
    rw [winnersFrom]
    rcases hm : argmaxList (bucketVals s b) with _ | r
    · simp only [List.mem_cons]
      constructor
      · intro _
        exact ⟨b, Or.inl rfl, hm⟩
      · intro _
        exact ⟨.valueError, rfl⟩
    · rcases hrec : winnersFrom s bs with e | rest
      · have hex : ∃ b' ∈ bs, argmaxList (bucketVals s b') = none :=
          (winnersFrom_error_iff s bs).mp ⟨e, hrec⟩
        simp only [List.mem_cons]
        constructor
        · intro _
          obtain ⟨b', hb', hn⟩ := hex
          exact ⟨b', Or.inr hb', hn⟩
        · intro _
          exact ⟨e, rfl⟩
      · have hnone : ¬ ∃ b' ∈ bs, argmaxList (bucketVals s b') = none := by
          intro hex
          obtain ⟨e, he⟩ := (winnersFrom_error_iff s bs).mpr hex
          rw [hrec] at he
          exact Except.noConfusion he
        simp only [List.mem_cons]
        constructor
        · rintro ⟨e, he⟩
          exact absurd he (by simp)
        · rintro ⟨b', hb', hn⟩
          rcases hb' with rfl | hb'
          · rw [hm] at hn
            exact absurd hn (by simp)
          · exact absurd ⟨b', hb', hn⟩ hnone

theorem chunkWinners_error_iff (s : List ℚ) :
    (∃ e, chunkWinners s = .error e) ↔ s.length ≤ (BUCKETS - 1) * BUCKET_SIZE := by
  rw [chunkWinners, winnersFrom_error_iff]
  constructor
  · rintro ⟨b, hb, hnone⟩
    rw [argmaxList_eq_none_iff, bucketVals_eq_nil_iff] at hnone
    have hb4 : b < BUCKETS := List.mem_range.mp hb
    have hble : b * BUCKET_SIZE ≤ (BUCKETS - 1) * BUCKET_SIZE :=
      Nat.mul_le_mul_right BUCKET_SIZE (by omega)
    exact le_trans hnone hble
  · intro hlen
    refine ⟨BUCKETS - 1, List.mem_range.mpr (by simp [BUCKETS]), ?_⟩
    rw [argmaxList_eq_none_iff, bucketVals_eq_nil_iff]
    exact hlen

theorem bucketWinners_error_iff :
    ∀ chunks : List (List ℚ),
      (∃ e, bucketWinners chunks = .error e) ↔
        ∃ s ∈ chunks, s.length ≤ (BUCKETS - 1) * BUCKET_SIZE
  | [] => by
    rw [bucketWinners]
    simp
  | c :: cs => by
    rw [bucketWinners]
    rcases hc : chunkWinners c with e | w
    · have hlen : c.length ≤ (BUCKETS - 1) * BUCKET_SIZE :=
        (chunkWinners_error_iff c).mp ⟨e, hc⟩
      simp only [List.mem_cons]
      constructor
      · intro _
        exact ⟨c, Or.inl rfl, hlen⟩
      · intro _
        exact ⟨e, rfl⟩
    · have hcok : ¬ c.length ≤ (BUCKETS - 1) * BUCKET_SIZE := by
        intro hlen
        obtain ⟨e, he⟩ := (chunkWinners_error_iff c).mpr hlen
        rw [hc] at he
        exact Except.noConfusion he
      rcases hrec : bucketWinners cs with e | rest
      · have hex := (bucketWinners_error_iff cs).mp ⟨e, hrec⟩
        simp only [List.mem_cons]
        constructor
        · intro _
          obtain ⟨s', hs', hlen'⟩ := hex
          exact ⟨s', Or.inr hs', hlen'⟩
        · intro _
          exact ⟨e, rfl⟩
      · have hnone : ¬ ∃ s' ∈ cs, s'.length ≤ (BUCKETS - 1) * BUCKET_SIZE := by
          intro hex
          obtain ⟨e, he⟩ := (bucketWinners_error_iff cs).mpr hex
          rw [hrec] at he
          exact Except.noConfusion he
        simp only [List.mem_cons]
        constructor
        · rintro ⟨e, he⟩
          exact absurd he (by simp)
        · rintro ⟨s', hs', hlen'⟩
          rcases hs' with rfl | hs'
          · exact absurd hlen' hcok
          · exact absurd ⟨s', hs', hlen'⟩ hnone

theorem bucketVals_length (s : List ℚ) (b : ℕ) (hb : b < BUCKETS)
    (hs : UPPER_LIMIT ≤ s.length) : (bucketVals s b).length = BUCKET_SIZE := by
  unfold bucketVals
  rw [List.length_take, List.length_drop]
  have hb4 : b < 4 := hb
  have hs80 : 80 ≤ s.length := hs
  have hbs : b * BUCKET_SIZE ≤ 60 := by
    calc b * BUCKET_SIZE ≤ 3 * BUCKET_SIZE := Nat.mul_le_mul_right BUCKET_SIZE (by omega)
    _ = 60 := rfl
  have hBS : BUCKET_SIZE = 20 := rfl
  omega

theorem bucketVals_get (s : List ℚ) (b k : ℕ)
    (hk : k < (bucketVals s b).length) (hsk : b * BUCKET_SIZE + k < s.length) :
    (bucketVals s b).get ⟨k, hk⟩ = s.getD (b * BUCKET_SIZE + k) 0 := by
  rw [List.getD_eq_getElem s 0 hsk, List.get_eq_getElem]
  unfold bucketVals at hk ⊢
  rw [List.getElem_take, List.getElem_drop]

/-- C3: for a spectrum with at least UPPER_LIMIT magnitudes and any
bucket index below BUCKETS, the fingerprint element produced for that
bucket lies inside the bucket's own index sub-range, its magnitude is a
maximum of the sub-band, and on ties the lowest index wins (earlier
indices of the sub-band carry strictly smaller magnitudes). -/
theorem bucket_winner_containment (s : List ℚ) (hs : UPPER_LIMIT ≤ s.length)
    (b : ℕ) (hb : b < BUCKETS) (w : List ℕ) (hw : chunkWinners s = .ok w) :
    ∃ hbw : b < w.length,
      b * BUCKET_SIZE ≤ w[b] ∧ w[b] < (b + 1) * BUCKET_SIZE ∧
      (∀ j, b * BUCKET_SIZE ≤ j → j < (b + 1) * BUCKET_SIZE →
        s.getD j 0 ≤ s.getD w[b] 0) ∧
      (∀ j, b * BUCKET_SIZE ≤ j → j < w[b] → s.getD j 0 < s.getD w[b] 0) := by
  obtain ⟨hlen, hspec⟩ := winnersFrom_ok_spec s (List.range BUCKETS) w hw
  have hbr : b < (List.range BUCKETS).length := by simpa using hb
  have hbw : b < w.length := by
    rw [hlen]
    exact hbr
  obtain ⟨r, hr, hwb⟩ := hspec b hbr hbw
  simp only [List.getElem_range] at hr hwb
  obtain ⟨hjlt, hle, hlt⟩ := argmaxList_spec _ r hr
  have hslice : (bucketVals s b).length = BUCKET_SIZE := bucketVals_length s b hb hs
  have hr20 : r < BUCKET_SIZE := by
    rw [hslice] at hjlt
    exact hjlt
  have hBS : BUCKET_SIZE = 20 := rfl
  have hs80 : 80 ≤ s.length := hs
  have hbs : b * BUCKET_SIZE ≤ 60 := by
    have hb4 : b < 4 := hb
    calc b * BUCKET_SIZE ≤ 3 * BUCKET_SIZE := Nat.mul_le_mul_right BUCKET_SIZE (by omega)
    _ = 60 := rfl
  have hsucc : (b + 1) * BUCKET_SIZE = b * BUCKET_SIZE + BUCKET_SIZE := by
    rw [Nat.succ_mul]
  refine ⟨hbw, ?_, ?_, ?_, ?_⟩
  · rw [hwb]
    omega
  · rw [hwb, hsucc]
    omega
  · intro j hj1 hj2
    rw [hsucc] at hj2
    rw [hwb]
    have hk : j - b * BUCKET_SIZE < (bucketVals s b).length := by
      rw [hslice]
      omega
    have hidx : b * BUCKET_SIZE + (j - b * BUCKET_SIZE) = j := by omega
    have h1 : (bucketVals s b).get ⟨j - b * BUCKET_SIZE, hk⟩ = s.getD j 0 := by
      rw [bucketVals_get s b (j - b * BUCKET_SIZE) hk (by omega), hidx]
    have h2 : (bucketVals s b).get ⟨r, hjlt⟩ = s.getD (r + b * BUCKET_SIZE) 0 := by
      rw [bucketVals_get s b r hjlt (by omega), Nat.add_comm]
    rw [← h1, ← h2]
    exact hle (j - b * BUCKET_SIZE) hk
  · intro j hj1 hj2
    rw [hwb] at hj2
    rw [hwb]
    have hk : j - b * BUCKET_SIZE < (bucketVals s b).length := by
      rw [hslice]
      omega
    have hidx : b * BUCKET_SIZE + (j - b * BUCKET_SIZE) = j := by omega
    have h1 : (bucketVals s b).get ⟨j - b * BUCKET_SIZE, hk⟩ = s.getD j 0 := by
      rw [bucketVals_get s b (j - b * BUCKET_SIZE) hk (by omega), hidx]
    have h2 : (bucketVals s b).get ⟨r, hjlt⟩ = s.getD (r + b * BUCKET_SIZE) 0 := by
      rw [bucketVals_get s b r hjlt (by omega), Nat.add_comm]
    rw [← h1, ← h2]
    exact hlt (j - b * BUCKET_SIZE) hk (by omega)

/-- Witness for `bucket_winner_containment` at a concrete 80-sample
spectrum and bucket 1. -/
theorem bucket_winner_containment_witness :
    UPPER_LIMIT ≤ (List.replicate 80 (0 : ℚ)).length ∧
    1 < BUCKETS ∧
    (∃ hbw : 1 < [0, 20, 40, 60].length,
      1 * BUCKET_SIZE ≤ [0, 20, 40, 60][1] ∧
      [0, 20, 40, 60][1] < (1 + 1) * BUCKET_SIZE ∧
      (∀ j, 1 * BUCKET_SIZE ≤ j → j < (1 + 1) * BUCKET_SIZE →
        (List.replicate 80 (0 : ℚ)).getD j 0 ≤
          (List.replicate 80 (0 : ℚ)).getD [0, 20, 40, 60][1] 0) ∧
      (∀ j, 1 * BUCKET_SIZE ≤ j → j < [0, 20, 40, 60][1] →
        (List.replicate 80 (0 : ℚ)).getD j 0 <
          (List.replicate 80 (0 : ℚ)).getD [0, 20, 40, 60][1] 0)) :=
  ⟨by decide, by decide,
    bucket_winner_containment (List.replicate 80 (0 : ℚ)) (by decide) 1 (by decide)
      [0, 20, 40, 60] (by rfl)⟩

/-- C4 counterexample: a 61-element spectrum is shorter than UPPER_LIMIT
yet `_bucket_winners` does not fail on it; it produces a fingerprint. -/
theorem short_spectrum_accepted :
    (List.replicate 61 (0 : ℚ)).length < UPPER_LIMIT ∧
    bucketWinners [List.replicate 61 (0 : ℚ)] = .ok [[0, 20, 40, 60]] :=
  ⟨by decide, by rfl⟩

/-- C4 amended: fingerprint extraction fails exactly when some spectrum
has at most (BUCKETS - 1) * BUCKET_SIZE = 60 elements, i.e. when its
final sub-band slice is empty and numpy's argmax raises; spectra with
61..79 elements pass even though they are shorter than UPPER_LIMIT. -/
theorem bucketWinners_fails_iff (chunks : List (List ℚ)) :
    (∃ e, bucketWinners chunks = .error e) ↔
      ∃ s ∈ chunks, s.length ≤ (BUCKETS - 1) * BUCKET_SIZE :=
  bucketWinners_error_iff chunks

/-- C2 counterexample: at sample rate 22050 the code computes chunk
length 512 while the spec's formula `round(NORMAL_CHUNK_SIZE ×
NORMAL_SAMPLE_RATE / sample_rate)` clamped to at least 1 yields 2048;
and at the non-positive sample rate -1 the code returns chunk length 0
instead of failing (also violating the claimed lower bound 1). -/
theorem chunk_size_claim_counterexample :
    chunkSizeOf 22050 = .ok 512 ∧ chunkSizeSpec 22050 = 2048 ∧ (512 : ℤ) ≠ 2048 ∧
    chunkSizeOf (-1) = .ok 0 ∧ ¬ (1 : ℤ) ≤ 0 := by
  refine ⟨?_, ?_, by decide, ?_, by decide⟩
  · rw [chunkSizeOf, if_neg (by norm_num)]
    have hq : NORMAL_CHUNK_SIZE / (NORMAL_SAMPLE_RATE / (22050 : ℚ)) = 512 := by
      norm_num [NORMAL_CHUNK_SIZE, NORMAL_SAMPLE_RATE]
    rw [hq, ratTrunc, if_neg (by norm_num)]
    norm_num
  · rw [chunkSizeSpec]
    have hq : NORMAL_CHUNK_SIZE * NORMAL_SAMPLE_RATE / (22050 : ℚ) = 2048 := by
      norm_num [NORMAL_CHUNK_SIZE, NORMAL_SAMPLE_RATE]
    rw [hq, ratRound, if_neg (by norm_num)]
    norm_num
  · rw [chunkSizeOf, if_neg (by norm_num)]
    have hq : NORMAL_CHUNK_SIZE / (NORMAL_SAMPLE_RATE / (-1 : ℚ)) = -(1024 / 44100) := by
      norm_num [NORMAL_CHUNK_SIZE, NORMAL_SAMPLE_RATE]
    rw [hq, ratTrunc, if_pos (by norm_num)]
    norm_num

/-- C2 amended: for every nonzero sample rate the chunk length is the
truncation toward zero of NORMAL_CHUNK_SIZE * sample_rate /
NORMAL_SAMPLE_RATE, with no minimum clamp and no rejection of negative
rates; a zero sample rate fails with Python's ZeroDivisionError. -/
theorem chunk_size_code_spec (sr : ℚ) :
    (sr ≠ 0 → chunkSizeOf sr = .ok (ratTrunc (NORMAL_CHUNK_SIZE * sr / NORMAL_SAMPLE_RATE))) ∧
    chunkSizeOf 0 = .error .zeroDivisionError := by
  constructor
  · intro hsr
    rw [chunkSizeOf, if_neg hsr, div_div_eq_mul_div]
  · rw [chunkSizeOf, if_pos rfl]

/-- Witness for `chunk_size_code_spec` at sample rate 22050. -/
theorem chunk_size_code_spec_witness :
    (22050 : ℚ) ≠ 0 ∧
    chunkSizeOf 22050 = .ok (ratTrunc (NORMAL_CHUNK_SIZE * 22050 / NORMAL_SAMPLE_RATE)) ∧
    chunkSizeOf 0 = .error .zeroDivisionError :=
  ⟨by decide, (chunk_size_code_spec 22050).1 (by decide), (chunk_size_code_spec 0).2⟩

/-- C7: on two zero-duration fingerprint results, `match` raises
Python's ZeroDivisionError at the score division `max_offset / min_len`;
the DegenerateInputError guard the spec requires before the division is
absent from the code. -/
theorem zero_duration_division_error :
    matchBool (0, [([0, 20, 40, 60], [0])]) (0, [([0, 20, 40, 60], [1])]) =
      .error .zeroDivisionError := by rfl

/-- C9 counterexample: when spectrum computation fails the run exits
with the file still open; `file.close()` at Wang.py line 81 is never
reached because the source has no try/finally around it. -/
theorem file_not_closed_on_series_failure :
    (fileFingerprint failEnv).result = .error .externalError ∧
    (fileFingerprint failEnv).closed = false :=
  ⟨rfl, rfl⟩

/-- C9 amended: the file handle is closed exactly on the runs that get
past spectrum computation: if the chunk-size computation or the spectrum
provider fails, the file is left open; failures in fingerprint
extraction happen after the close, so those paths do release the file. -/
theorem file_close_iff (env : FileEnv) :
    (fileFingerprint env).closed = true ↔
      ∃ cs ser, chunkSizeOf env.sampleRate = .ok cs ∧ env.series cs = .ok ser := by
  rcases hcs : chunkSizeOf env.sampleRate with e | cs
  · simp [fileFingerprint, hcs]
  · rcases hser : env.series cs with e | ser
    · simp [fileFingerprint, hcs, hser]
    · rcases hbw : bucketWinners ser with e | winners
      · simp [fileFingerprint, hcs, hser, hbw]
      · simp [fileFingerprint, hcs, hser, hbw]


theorem lookupFp_addChunk :
    ∀ (h : HashT) (fp k : Fp) (c : ℕ),
      lookupFp k (addChunk h fp c) =
        if k = fp then some (lookupD fp h ++ [c]) else lookupFp k h
  | [], fp, k, c => by
    by_cases hk : k = fp
    · subst hk
      simp [addChunk, lookupFp, lookupD]
    · have hk2 : ¬ fp = k := fun hc => hk hc.symm
      simp [addChunk, lookupFp, lookupD, hk, hk2]
  | p :: t, fp, k, c => by
    by_cases hpf : p.1 = fp
    · by_cases hk : k = fp
      · subst hk
        simp [addChunk, lookupFp, lookupD, hpf]
      · have hpk : ¬ p.1 = k := by
          rw [hpf]
          exact fun hc => hk hc.symm
        have hfk : ¬ fp = k := fun hc => hk hc.symm
        simp [addChunk, lookupFp, lookupD, hpf, hpk, hk, hfk]
    · by_cases hk : k = fp
      · subst hk
        have hpk : ¬ p.1 = k := hpf
        simp [addChunk, lookupFp, lookupD, hpf, hpk, lookupFp_addChunk t k k c]
      · by_cases hpk : p.1 = k
        · simp [addChunk, lookupFp, hpf, hpk, hk]
        · simp [addChunk, lookupFp, hpf, hpk, hk, lookupFp_addChunk t fp k c]

theorem lookupD_addChunk (h : HashT) (fp k : Fp) (c : ℕ) :
    lookupD k (addChunk h fp c) =
      if k = fp then lookupD fp h ++ [c] else lookupD k h := by
  rw [lookupD, lookupFp_addChunk h fp k c]
  by_cases hk : k = fp
  · rw [if_pos hk, if_pos hk, Option.getD_some]
  · rw [if_neg hk, if_neg hk, lookupD]

theorem keysOf_addChunk :
    ∀ (h : HashT) (fp : Fp) (c : ℕ),
      keysOf (addChunk h fp c) =
        if fp ∈ keysOf h then keysOf h else keysOf h ++ [fp]
  | [], fp, c => by simp [addChunk, keysOf]
  | p :: t, fp, c => by
    have hrec := keysOf_addChunk t fp c
    by_cases hpf : p.1 = fp
    · have hmem : fp ∈ keysOf (p :: t) := by
        rw [← hpf]
        simp [keysOf]
      rw [if_pos hmem]
      simp [addChunk, keysOf, hpf]
    · have hiff : (fp ∈ keysOf (p :: t)) ↔ fp ∈ keysOf t := by
        simp only [keysOf, List.map_cons, List.mem_cons]
        constructor
        · rintro (hc | hm)
          · exact absurd hc.symm hpf
          · exact hm
        · exact Or.inr
      by_cases hmem : fp ∈ keysOf t
      · rw [if_pos (hiff.mpr hmem)]
        calc keysOf (addChunk (p :: t) fp c)
            = p.1 :: keysOf (addChunk t fp c) := by simp [addChunk, hpf, keysOf]
          _ = p.1 :: keysOf t := by rw [hrec, if_pos hmem]
          _ = keysOf (p :: t) := by simp [keysOf]
      · rw [if_neg (fun hc => hmem (hiff.mp hc))]
        calc keysOf (addChunk (p :: t) fp c)
            = p.1 :: keysOf (addChunk t fp c) := by simp [addChunk, hpf, keysOf]
          _ = p.1 :: (keysOf t ++ [fp]) := by rw [hrec, if_neg hmem]
          _ = keysOf (p :: t) ++ [fp] := by simp [keysOf]

theorem nodupKeys_addChunk (h : HashT) (fp : Fp) (c : ℕ)
    (hnd : NodupKeys h) : NodupKeys (addChunk h fp c) := by
  unfold NodupKeys at *
  rw [keysOf_addChunk h fp c]
  by_cases hmem : fp ∈ keysOf h
  · simpa [hmem] using hnd
  · simp [hmem, List.nodup_append, hnd]

theorem lookupD_buildHashAux (k : Fp) :
    ∀ (fps : List Fp) (i : ℕ) (h : HashT),
      lookupD k (buildHashAux fps i h) = lookupD k h ++ occIdx k fps i
  | [], i, h => by simp [buildHashAux, occIdx]
  | fp :: t, i, h => by
    rw [buildHashAux, lookupD_buildHashAux k t (i + 1) (addChunk h fp i),
      lookupD_addChunk h fp k i]
    by_cases hk : k = fp
    · subst hk
      simp [occIdx]
    · have hk2 : ¬ fp = k := fun hc => hk hc.symm
      simp [occIdx, hk, hk2]

theorem isSome_buildHashAux (k : Fp) :
    ∀ (fps : List Fp) (i : ℕ) (h : HashT),
      (lookupFp k (buildHashAux fps i h)).isSome ↔
        (lookupFp k h).isSome ∨ k ∈ fps
  | [], i, h => by simp [buildHashAux]
  | fp :: t, i, h => by
    rw [buildHashAux, isSome_buildHashAux k t (i + 1) (addChunk h fp i),
      lookupFp_addChunk h fp k i]
    by_cases hk : k = fp
    · subst hk
      simp
    · simp [hk]

theorem nodupKeys_buildHashAux :
    ∀ (fps : List Fp) (i : ℕ) (h : HashT),
      NodupKeys h → NodupKeys (buildHashAux fps i h)
  | [], _, _, hnd => hnd
  | fp :: t, i, h, hnd =>
    nodupKeys_buildHashAux t (i + 1) (addChunk h fp i) (nodupKeys_addChunk h fp i hnd)

theorem occIdx_ge (k : Fp) :
    ∀ (fps : List Fp) (i j : ℕ), j ∈ occIdx k fps i → i ≤ j
  | [], i, j, hj => by simp [occIdx] at hj
  | fp :: t, i, j, hj => by
    rw [occIdx] at hj
    by_cases hfp : fp = k
    · rw [if_pos hfp] at hj
      rcases List.mem_cons.mp hj with rfl | hj'
      · exact le_refl _
      · have hge := occIdx_ge k t (i + 1) j hj'
        omega
    · rw [if_neg hfp] at hj
      have hge := occIdx_ge k t (i + 1) j hj
      omega

theorem occIdx_sorted (k : Fp) :
    ∀ (fps : List Fp) (i : ℕ), List.Sorted (· < ·) (occIdx k fps i)
  | [], _ => by simp [occIdx]
  | fp :: t, i => by
    rw [occIdx]
    by_cases hfp : fp = k
    · rw [if_pos hfp]
      refine List.sorted_cons.mpr ⟨?_, occIdx_sorted k t (i + 1)⟩
      intro b hb
      have hge := occIdx_ge k t (i + 1) b hb
      omega
    · rw [if_neg hfp]
      exact occIdx_sorted k t (i + 1)

theorem occIdx_mem (k : Fp) :
    ∀ (fps : List Fp) (i j : ℕ),
      j ∈ occIdx k fps i ↔ i ≤ j ∧ j - i < fps.length ∧ fps.getD (j - i) [] = k
  | [], i, j => by
    simp [occIdx]
  | fp :: t, i, j => by
    rw [occIdx]
    by_cases hfp : fp = k
    · rw [if_pos hfp]
      simp only [List.mem_cons, occIdx_mem k t (i + 1) j]
      constructor
      · rintro (rfl | ⟨h1, h2, h3⟩)
        · exact ⟨le_refl _, by simp, by simpa using hfp⟩
        · refine ⟨by omega, by simp only [List.length_cons]; omega, ?_⟩
          have hd : j - i = (j - (i + 1)) + 1 := by omega
          rw [hd, List.getD_cons_succ]
          exact h3
      · rintro ⟨h1, h2, h3⟩
        by_cases hji : j = i
        · exact Or.inl hji
        · simp only [List.length_cons] at h2
          refine Or.inr ⟨by omega, by omega, ?_⟩
          have hd : j - i = (j - (i + 1)) + 1 := by omega
          rw [hd, List.getD_cons_succ] at h3
          exact h3
    · rw [if_neg hfp]
      rw [occIdx_mem k t (i + 1) j]
      constructor
      · rintro ⟨h1, h2, h3⟩
        refine ⟨by omega, by simp only [List.length_cons]; omega, ?_⟩
        have hd : j - i = (j - (i + 1)) + 1 := by omega
        rw [hd, List.getD_cons_succ]
        exact h3
      · rintro ⟨h1, h2, h3⟩
        by_cases hji : j = i
        · subst hji
          simp only [Nat.sub_self, List.getD_cons_zero] at h3
          exact absurd h3 hfp
        · simp only [List.length_cons] at h2
          refine ⟨by omega, by omega, ?_⟩
          have hd : j - i = (j - (i + 1)) + 1 := by omega
          rw [hd, List.getD_cons_succ] at h3
          exact h3

theorem occIdx_length (k : Fp) :
    ∀ (fps : List Fp) (i : ℕ), (occIdx k fps i).length = fps.count k
  | [], _ => by simp [occIdx]
  | fp :: t, i => by
    rw [occIdx]
    by_cases hfp : fp = k
    · rw [if_pos hfp]
      simp [occIdx_length k t (i + 1), List.count_cons, hfp]
    · rw [if_neg hfp]
      simp [occIdx_length k t (i + 1), List.count_cons, hfp]

/-- C8: `_hash` maps each distinct fingerprint value to the list of
chunk indices where it occurred, in ascending order; repeated
fingerprints accumulate one entry per occurrence under the same key
(the list's length is the occurrence count, no deduplication), and the
table has one entry per distinct fingerprint. -/
theorem hash_groups_chunks (fps : List Fp) (k : Fp) :
    ((lookupFp k (buildHash fps)).isSome ↔ k ∈ fps) ∧
    List.Sorted (· < ·) (lookupD k (buildHash fps)) ∧
    (∀ j, j ∈ lookupD k (buildHash fps) ↔ j < fps.length ∧ fps.getD j [] = k) ∧
    (lookupD k (buildHash fps)).length = fps.count k ∧
    NodupKeys (buildHash fps) := by
  have hD : lookupD k (buildHash fps) = occIdx k fps 0 := by
    rw [buildHash, lookupD_buildHashAux k fps 0 []]
    simp [lookupD, lookupFp]
  refine ⟨?_, ?_, ?_, ?_, ?_⟩
  · rw [buildHash, isSome_buildHashAux k fps 0 []]
    simp [lookupFp]
  · rw [hD]
    exact occIdx_sorted k fps 0
  · intro j
    rw [hD, occIdx_mem k fps 0 j]
    simp
  · rw [hD]
    exact occIdx_length k fps 0
  · exact nodupKeys_buildHashAux fps 0 [] (by simp [NodupKeys, keysOf])

theorem count_flatMap {α : Type} (l : List α) (f : α → List ℤ) (o : ℤ) :
    ((l.flatMap f).count o) = (l.map (fun a => (f a).count o)).sum := by
  induction l with
  | nil => rfl
  | cons a t ih => simp [List.count_append, ih]

theorem length_flatMap {α β : Type} (l : List α) (f : α → List β) :
    (l.flatMap f).length = (l.map (fun a => (f a).length)).sum := by
  induction l with
  | nil => rfl
  | cons a t ih => simp [ih]

theorem pairProd_nil (cs : List ℕ) : pairProd cs [] = [] := by
  induction cs with
  | nil => rfl
  | cons c t ih =>
    have h1 : pairProd (c :: t) [] = ([] : List ℤ) ++ pairProd t [] := rfl
    rw [h1, List.nil_append, ih]

theorem listProd_nil (cs : List ℕ) : listProd cs [] = [] := by
  induction cs with
  | nil => rfl
  | cons c t ih =>
    have h1 : listProd (c :: t) [] = ([] : List (ℕ × ℕ)) ++ listProd t [] := rfl
    rw [h1, List.nil_append, ih]

theorem pairProd_length (cs1 cs2 : List ℕ) :
    (pairProd cs1 cs2).length = cs1.length * cs2.length := by
  induction cs1 with
  | nil => simp [pairProd]
  | cons c t ih =>
    simp only [pairProd, List.flatMap_cons] at ih ⊢
    rw [List.length_append, List.length_map, ih]
    simp only [List.length_cons, Nat.succ_mul]
    omega

theorem count_map_offsets (c1 : ℕ) (cs2 : List ℕ) (o : ℤ) :
    (cs2.map (fun (c2 : ℕ) => (c1 : ℤ) - (c2 : ℤ))).count o =
      ((cs2.map (fun c2 => (c1, c2))).filter
        (fun q => (q.1 : ℤ) - (q.2 : ℤ) = o)).length := by
  induction cs2 with
  | nil => rfl
  | cons c2 t ih =>
    by_cases hc : (c1 : ℤ) - (c2 : ℤ) = o
    · simp only [List.map_cons, List.count_cons, List.filter_cons, ih]
      simp [hc]
    · simp only [List.map_cons, List.count_cons, List.filter_cons, ih]
      simp [hc]

theorem count_pairProd (cs1 cs2 : List ℕ) (o : ℤ) :
    (pairProd cs1 cs2).count o = countPairsAt cs1 cs2 o := by
  induction cs1 with
  | nil => rfl
  | cons c t ih =>
    simp only [pairProd, countPairsAt, listProd, List.flatMap_cons, List.count_append,
      List.filter_append, List.length_append] at ih ⊢
    rw [ih, count_map_offsets]

theorem entryOffsets_eq (h2 : HashT) (p : Fp × List ℕ) :
    entryOffsets h2 p = pairProd p.2 (lookupD p.1 h2) := by
  rw [entryOffsets]
  rcases hl : lookupFp p.1 h2 with _ | cs2
  · rw [lookupD, hl, Option.getD_none, pairProd_nil]
  · rw [lookupD, hl, Option.getD_some]

theorem count_offsetsList (h1 h2 : HashT) (o : ℤ) :
    (offsetsList h1 h2).count o =
      (h1.map (fun p => countPairsAt p.2 (lookupD p.1 h2) o)).sum := by
  rw [offsetsList, count_flatMap]
  congr 1
  apply List.map_congr_left
  intro p _
  rw [entryOffsets_eq, count_pairProd]

theorem length_offsetsList (h1 h2 : HashT) :
    (offsetsList h1 h2).length =
      (h1.map (fun p => p.2.length * (lookupD p.1 h2).length)).sum := by
  rw [offsetsList, length_flatMap]
  congr 1
  apply List.map_congr_left
  intro p _
  rw [entryOffsets_eq, pairProd_length]

theorem lookupFp_eq_none_iff (k : Fp) :
    ∀ h : HashT, lookupFp k h = none ↔ k ∉ keysOf h
  | [] => by simp [lookupFp, keysOf]
  | p :: t => by
    rw [lookupFp]
    by_cases hpk : p.1 = k
    · simp only [if_pos hpk, keysOf, List.map_cons, List.mem_cons]
      constructor
      · intro hc
        exact Option.noConfusion hc
      · intro hc
        exact absurd (Or.inl hpk.symm) hc
    · simp only [if_neg hpk, lookupFp_eq_none_iff k t, keysOf, List.map_cons, List.mem_cons]
      constructor
      · intro hni hc
        rcases hc with hc | hc
        · exact hpk hc.symm
        · exact hni hc
      · intro hni hc
        exact hni (Or.inr hc)

theorem mem_of_lookupFp :
    ∀ (h : HashT) (k : Fp) (cs : List ℕ), lookupFp k h = some cs → (k, cs) ∈ h
  | [], k, cs, hl => by simp [lookupFp] at hl
  | p :: t, k, cs, hl => by
    rw [lookupFp] at hl
    by_cases hpk : p.1 = k
    · rw [if_pos hpk] at hl
      have hcs : cs = p.2 := by
        injection hl with h'
        exact h'.symm
      subst hcs
      have hp : (k, p.2) = p := by
        rw [← hpk]
      rw [hp]
      exact List.mem_cons_self p t
    · rw [if_neg hpk] at hl
      exact List.mem_cons_of_mem p (mem_of_lookupFp t k cs hl)

theorem lookupD_eq_nil_of_not_mem (k : Fp) (h : HashT) (hk : k ∉ keysOf h) :
    lookupD k h = [] := by
  rw [lookupD, (lookupFp_eq_none_iff k h).mpr hk, Option.getD_none]

theorem countPairsAt_nil_left (cs : List ℕ) (o : ℤ) : countPairsAt [] cs o = 0 := rfl

theorem countPairsAt_nil_right (cs : List ℕ) (o : ℤ) : countPairsAt cs [] o = 0 := by
  rw [countPairsAt, listProd_nil]
  rfl

theorem mem_le_foldr_max :
    ∀ (l : List ℕ) (a : ℕ), a ∈ l → a ≤ l.foldr max 0
  | [], a, ha => by simp at ha
  | b :: t, a, ha => by
    rcases List.mem_cons.mp ha with rfl | ha'
    · exact le_max_left _ _
    · exact le_trans (mem_le_foldr_max t a ha') (le_max_right _ _)

theorem foldr_max_mem :
    ∀ l : List ℕ, l.foldr max 0 ∈ l ∨ l.foldr max 0 = 0
  | [] => Or.inr rfl
  | b :: t => by
    rw [List.foldr_cons]
    rcases max_choice b (t.foldr max 0) with hm | hm
    · rw [hm]
      exact Or.inl (List.mem_cons_self b t)
    · rw [hm]
      rcases foldr_max_mem t with hin | hz
      · exact Or.inl (List.mem_cons_of_mem b hin)
      · exact Or.inr hz

theorem count_le_listMaxCount (l : List ℤ) (o : ℤ) : l.count o ≤ listMaxCount l := by
  by_cases ho : o ∈ l
  · exact mem_le_foldr_max _ _ (List.mem_map_of_mem (fun o' => l.count o') ho)
  · rw [List.count_eq_zero_of_not_mem ho]
    exact Nat.zero_le _

theorem exists_count_eq_listMaxCount (l : List ℤ) (hl : l ≠ []) :
    ∃ o ∈ l, l.count o = listMaxCount l := by
  rcases foldr_max_mem (l.map (fun o => l.count o)) with hin | hz
  · obtain ⟨o, ho, heq⟩ := List.mem_map.mp hin
    exact ⟨o, ho, heq⟩
  · obtain ⟨x, hx⟩ := List.exists_mem_of_ne_nil l hl
    have h1 : l.count x ≤ listMaxCount l := count_le_listMaxCount l x
    have h2 : 0 < l.count x := List.count_pos_iff.mpr hx
    rw [listMaxCount] at h1 ⊢
    rw [hz] at h1
    omega

theorem listMaxCount_pos (l : List ℤ) (hl : l ≠ []) : 1 ≤ listMaxCount l := by
  obtain ⟨o, ho, heq⟩ := exists_count_eq_listMaxCount l hl
  have h2 : 0 < l.count o := List.count_pos_iff.mpr ho
  omega

theorem foldr_max_perm (l1 l2 : List ℕ) (hp : l1.Perm l2) :
    l1.foldr max 0 = l2.foldr max 0 := by
  induction hp with
  | nil => rfl
  | cons x _ ih => simp only [List.foldr_cons, ih]
  | swap x y l => simp only [List.foldr_cons, max_left_comm]
  | trans _ _ ih1 ih2 => exact ih1.trans ih2

theorem listMaxCount_congr (l1 l2 : List ℤ) (hc : ∀ o, l1.count o = l2.count o) :
    listMaxCount l1 = listMaxCount l2 := by
  have hperm : l1.Perm l2 := List.perm_iff_count.mpr hc
  rw [listMaxCount, listMaxCount]
  have h1 : l1.map (fun o => l1.count o) = l1.map (fun o => l2.count o) :=
    List.map_congr_left (fun a _ => hc a)
  rw [h1]
  exact foldr_max_perm _ _ (hperm.map _)

theorem count_map_neg (l : List ℤ) (o : ℤ) :
    (l.map (fun x => -x)).count o = l.count (-o) := by
  induction l with
  | nil => rfl
  | cons a t ih =>
    simp only [List.map_cons, List.count_cons, ih]
    congr 1
    by_cases ha : -a = o
    · have h2 : a = -o := by omega
      simp [ha, h2]
    · have h2 : ¬ a = -o := by omega
      simp [ha, h2]

theorem listMaxCount_map_neg (l : List ℤ) :
    listMaxCount (l.map (fun x => -x)) = listMaxCount l := by
  rw [listMaxCount, listMaxCount, List.map_map]
  have h1 : ((fun o => (l.map (fun x => -x)).count o) ∘ (fun x => -x)) =
      fun x => l.count x := by
    funext x
    simp only [Function.comp]
    rw [count_map_neg, neg_neg]
  rw [h1]

theorem sum_map_add {β : Type} (l : List β) (g f : β → ℕ) :
    (l.map (fun b => g b + f b)).sum = (l.map g).sum + (l.map f).sum := by
  induction l with
  | nil => rfl
  | cons b t ih =>
    simp only [List.map_cons, List.sum_cons, ih]
    omega

theorem map_sum_comm {α β : Type} (l1 : List α) (l2 : List β) (f : α → β → ℕ) :
    (l1.map (fun a => (l2.map (f a)).sum)).sum =
      (l2.map (fun b => (l1.map (fun a => f a b)).sum)).sum := by
  induction l1 with
  | nil => simp
  | cons a t ih =>
    simp only [List.map_cons, List.sum_cons, ih, ← sum_map_add]

theorem countP_eq_sum_map {β : Type} (l : List β) (p : β → Bool) :
    l.countP p = (l.map (fun b => if p b then 1 else 0)).sum := by
  induction l with
  | nil => rfl
  | cons b t ih =>
    simp only [List.countP_cons, List.map_cons, List.sum_cons, ih]
    by_cases hb : p b
    · simp [hb]
      omega
    · simp [hb]

theorem countPairsAt_eq_sum (cs1 cs2 : List ℕ) (o : ℤ) :
    countPairsAt cs1 cs2 o =
      (cs1.map (fun (c1 : ℕ) =>
        (cs2.map (fun (c2 : ℕ) => if (c1 : ℤ) - (c2 : ℤ) = o then 1 else 0)).sum)).sum := by
  induction cs1 with
  | nil => rfl
  | cons c t ih =>
    simp only [countPairsAt, listProd, List.flatMap_cons, List.filter_append,
      List.length_append, List.map_cons, List.sum_cons] at ih ⊢
    rw [ih]
    congr 1
    rw [← List.countP_eq_length_filter, List.countP_map, countP_eq_sum_map]
    congr 1
    apply List.map_congr_left
    intro x _
    simp [Function.comp]

theorem countPairsAt_swap (cs1 cs2 : List ℕ) (o : ℤ) :
    countPairsAt cs1 cs2 o = countPairsAt cs2 cs1 (-o) := by
  rw [countPairsAt_eq_sum, countPairsAt_eq_sum, map_sum_comm]
  congr 1
  apply List.map_congr_left
  intro c2 _
  congr 1
  apply List.map_congr_left
  intro c1 _
  by_cases hc : (c1 : ℤ) - (c2 : ℤ) = o
  · rw [if_pos hc, if_pos (by omega)]
  · rw [if_neg hc, if_neg (by omega)]

theorem lookupFp_of_mem_nodup :
    ∀ (h : HashT), NodupKeys h → ∀ (k : Fp) (cs : List ℕ),
      (k, cs) ∈ h → lookupFp k h = some cs
  | [], _, k, cs, hmem => by simp at hmem
  | p :: t, hnd, k, cs, hmem => by
    have hnd' : NodupKeys t := by
      rw [NodupKeys, keysOf, List.map_cons, List.nodup_cons] at hnd
      exact hnd.2
    have hp1 : p.1 ∉ keysOf t := by
      rw [NodupKeys, keysOf, List.map_cons, List.nodup_cons] at hnd
      exact hnd.1
    rcases List.mem_cons.mp hmem with heq | hmem'
    · rw [lookupFp, if_pos (by rw [← heq])]
      rw [← heq]
    · have hk : k ∈ keysOf t := by
        rw [keysOf]
        exact List.mem_map_of_mem Prod.fst hmem'
      have hne : ¬ p.1 = k := fun hc => hp1 (hc ▸ hk)
      rw [lookupFp, if_neg hne]
      exact lookupFp_of_mem_nodup t hnd' k cs hmem'

theorem sum_entries_eq (G : Fp × List ℕ → ℕ) :
    ∀ (h : HashT), NodupKeys h →
      (h.map G).sum = (keyFinset h).sum (fun k => G (k, lookupD k h))
  | [], _ => by simp [keyFinset, keysOf]
  | p :: t, hnd => by
    have hnd' : NodupKeys t := by
      rw [NodupKeys, keysOf, List.map_cons, List.nodup_cons] at hnd
      exact hnd.2
    have hp1 : p.1 ∉ keysOf t := by
      rw [NodupKeys, keysOf, List.map_cons, List.nodup_cons] at hnd
      exact hnd.1
    have hins : keyFinset (p :: t) = insert p.1 (keyFinset t) := by
      rw [keyFinset, keysOf, List.map_cons, List.toFinset_cons, keyFinset, keysOf]
    have hnotin : p.1 ∉ keyFinset t := by
      rw [keyFinset]
      exact fun hc => hp1 (List.mem_toFinset.mp hc)
    rw [List.map_cons, List.sum_cons, hins, Finset.sum_insert hnotin]
    congr 1
    · rw [lookupD, lookupFp, if_pos rfl, Option.getD_some]
    · rw [sum_entries_eq G t hnd']
      apply Finset.sum_congr rfl
      intro k hk
      have hkt : k ∈ keysOf t := List.mem_toFinset.mp hk
      have hne : ¬ p.1 = k := fun hc => hp1 (hc ▸ hkt)
      simp only [lookupD, lookupFp, if_neg hne]

theorem histogram_symm_counts (h1 h2 : HashT)
    (hnd1 : NodupKeys h1) (hnd2 : NodupKeys h2) (o : ℤ) :
    (offsetsList h1 h2).count o = (offsetsList h2 h1).count (-o) := by
  rw [count_offsetsList, count_offsetsList,
    sum_entries_eq (fun p => countPairsAt p.2 (lookupD p.1 h2) o) h1 hnd1,
    sum_entries_eq (fun p => countPairsAt p.2 (lookupD p.1 h1) (-o)) h2 hnd2]
  have hz1 : ∀ k ∈ keyFinset h1 ∪ keyFinset h2, k ∉ keyFinset h1 →
      countPairsAt (lookupD k h1) (lookupD k h2) o = 0 := by
    intro k _ hk
    rw [lookupD_eq_nil_of_not_mem k h1 (fun hc => hk (List.mem_toFinset.mpr hc)),
      countPairsAt_nil_left]
  have hz2 : ∀ k ∈ keyFinset h2 ∪ keyFinset h1, k ∉ keyFinset h2 →
      countPairsAt (lookupD k h2) (lookupD k h1) (-o) = 0 := by
    intro k _ hk
    rw [lookupD_eq_nil_of_not_mem k h2 (fun hc => hk (List.mem_toFinset.mpr hc)),
      countPairsAt_nil_left]
  rw [Finset.sum_subset Finset.subset_union_left hz1,
    Finset.sum_subset Finset.subset_union_left hz2,
    Finset.union_comm (keyFinset h2) (keyFinset h1)]
  apply Finset.sum_congr rfl
  intro k _
  exact countPairsAt_swap (lookupD k h1) (lookupD k h2) o

theorem maxOffsetOf_symm (h1 h2 : HashT)
    (hnd1 : NodupKeys h1) (hnd2 : NodupKeys h2) :
    maxOffsetOf h1 h2 = maxOffsetOf h2 h1 := by
  rw [maxOffsetOf, maxOffsetOf]
  have hc : ∀ o, (offsetsList h1 h2).count o =
      ((offsetsList h2 h1).map (fun x => -x)).count o := by
    intro o
    rw [count_map_neg]
    exact histogram_symm_counts h1 h2 hnd1 hnd2 o
  rw [listMaxCount_congr _ _ hc, listMaxCount_map_neg]

theorem matchBool_eq (r1 r2 : ℚ × HashT) (hne : min r1.1 r2.1 ≠ 0) :
    matchBool r1 r2 =
      if (maxOffsetOf r1.2 r2.2 : ℚ) / min r1.1 r2.1 > SCORE_THRESHOLD
      then .ok true else .ok false := by
  simp only [matchBool]
  rw [if_neg hne]

theorem offsetsList_nil_of_no_shared :
    ∀ (h1 h2 : HashT), (∀ k ∈ keysOf h1, k ∉ keysOf h2) → offsetsList h1 h2 = []
  | [], h2, _ => rfl
  | p :: t, h2, hno => by
    have hp : p.1 ∈ keysOf (p :: t) := by simp [keysOf]
    have he : entryOffsets h2 p = [] := by
      rw [entryOffsets, (lookupFp_eq_none_iff p.1 h2).mpr (hno p.1 hp)]
    have ht : offsetsList t h2 = [] := by
      refine offsetsList_nil_of_no_shared t h2 ?_
      intro k hk
      exact hno k (List.mem_cons_of_mem p.1 hk)
    show entryOffsets h2 p ++ t.flatMap (entryOffsets h2) = []
    rw [he, List.nil_append]
    exact ht

theorem offsetsList_ne_nil_of_shared (h1 h2 : HashT) (k : Fp)
    (hk1 : k ∈ keysOf h1) (hk2 : k ∈ keysOf h2)
    (hv1 : ∀ p ∈ h1, p.2 ≠ []) (hv2 : ∀ p ∈ h2, p.2 ≠ []) :
    offsetsList h1 h2 ≠ [] := by
  rw [keysOf] at hk1
  obtain ⟨p, hp, hpk⟩ := List.mem_map.mp hk1
  have h2some : ∃ cs2, lookupFp k h2 = some cs2 := by
    rcases hopt : lookupFp k h2 with _ | cs2
    · exact absurd ((lookupFp_eq_none_iff k h2).mp hopt) (by simpa using hk2)
    · exact ⟨cs2, rfl⟩
  obtain ⟨cs2, hcs2⟩ := h2some
  have hcs2ne : cs2 ≠ [] := hv2 (k, cs2) (mem_of_lookupFp h2 k cs2 hcs2)
  have hcs1ne : p.2 ≠ [] := hv1 p hp
  have hED : entryOffsets h2 p = pairProd p.2 cs2 := by
    rw [entryOffsets_eq, hpk, lookupD, hcs2, Option.getD_some]
  have hent : entryOffsets h2 p ≠ [] := by
    rw [hED]
    intro hcon
    have hlen := pairProd_length p.2 cs2
    rw [hcon] at hlen
    have hl1 : p.2.length ≠ 0 := fun hz => hcs1ne (List.length_eq_zero.mp hz)
    have hl2 : cs2.length ≠ 0 := fun hz => hcs2ne (List.length_eq_zero.mp hz)
    have hz : p.2.length * cs2.length = 0 := hlen.symm
    rcases Nat.mul_eq_zero.mp hz with h | h
    · exact hl1 h
    · exact hl2 h
  intro hcon
  rcases hq : entryOffsets h2 p with _ | ⟨x, xs⟩
  · exact hent hq
  · have hxmem : x ∈ offsetsList h1 h2 :=
      List.mem_flatMap.mpr ⟨p, hp, by rw [hq]; exact List.mem_cons_self x xs⟩
    rw [hcon] at hxmem
    simp at hxmem

/-- C5: two fingerprint results with positive minimum duration whose
tables share no key produce max_offset 0, score 0 and, with debug
false, a false verdict; and in general with debug false the boolean is
exactly the strict comparison score > SCORE_THRESHOLD, so a score of
exactly 0 is no match. -/
theorem no_shared_fingerprint_no_match (d1 d2 : ℚ) (h1 h2 : HashT)
    (hmin : 0 < min d1 d2)
    (hno : ∀ k ∈ keysOf h1, k ∉ keysOf h2) :
    maxOffsetOf h1 h2 = 0 ∧
    (maxOffsetOf h1 h2 : ℚ) / min d1 d2 = 0 ∧
    matchBool (d1, h1) (d2, h2) = .ok false ∧
    (∀ r1 r2 : ℚ × HashT, min r1.1 r2.1 ≠ 0 →
      (matchBool r1 r2 = .ok true ↔
        (maxOffsetOf r1.2 r2.2 : ℚ) / min r1.1 r2.1 > SCORE_THRESHOLD)) := by
  have hnil : offsetsList h1 h2 = [] := offsetsList_nil_of_no_shared h1 h2 hno
  have hmax : maxOffsetOf h1 h2 = 0 := by
    rw [maxOffsetOf, hnil]
    rfl
  have hne : min d1 d2 ≠ 0 := ne_of_gt hmin
  refine ⟨hmax, ?_, ?_, ?_⟩
  · rw [hmax]
    simp
  · have hcond : ¬ ((maxOffsetOf h1 h2 : ℚ) / min d1 d2 > SCORE_THRESHOLD) := by
      rw [hmax]
      simp [SCORE_THRESHOLD]
    rw [matchBool_eq (d1, h1) (d2, h2) hne, if_neg hcond]
  · intro r1 r2 hner
    rw [matchBool_eq r1 r2 hner]
    by_cases hcond : (maxOffsetOf r1.2 r2.2 : ℚ) / min r1.1 r2.1 > SCORE_THRESHOLD
    · rw [if_pos hcond]
      simp [hcond]
    · rw [if_neg hcond]
      simp [hcond]

/-- Witness for `no_shared_fingerprint_no_match` at two concrete
single-key tables with distinct keys. -/
theorem no_shared_fingerprint_no_match_witness :
    0 < min (1 : ℚ) 2 ∧
    (∀ k ∈ keysOf [([1], [0])], k ∉ keysOf [([2], [0])]) ∧
    (maxOffsetOf [([1], [0])] [([2], [0])] = 0 ∧
     (maxOffsetOf [([1], [0])] [([2], [0])] : ℚ) / min (1 : ℚ) 2 = 0 ∧
     matchBool ((1 : ℚ), [([1], [0])]) ((2 : ℚ), [([2], [0])]) = .ok false ∧
     (∀ r1 r2 : ℚ × HashT, min r1.1 r2.1 ≠ 0 →
       (matchBool r1 r2 = .ok true ↔
         (maxOffsetOf r1.2 r2.2 : ℚ) / min r1.1 r2.1 > SCORE_THRESHOLD))) :=
  ⟨by decide, by decide,
    no_shared_fingerprint_no_match 1 2 [([1], [0])] [([2], [0])] (by decide) (by decide)⟩

/-- C10: with positive minimum duration and the default zero threshold,
match with debug false returns true exactly when the two fingerprint
tables share at least one key. -/
theorem match_iff_shared_fingerprint (d1 d2 : ℚ) (h1 h2 : HashT)
    (hmin : 0 < min d1 d2)
    (hv1 : ∀ p ∈ h1, p.2 ≠ []) (hv2 : ∀ p ∈ h2, p.2 ≠ []) :
    (matchBool (d1, h1) (d2, h2) = .ok true ↔
      ∃ k, k ∈ keysOf h1 ∧ k ∈ keysOf h2) := by
  have hne : min d1 d2 ≠ 0 := ne_of_gt hmin
  rw [matchBool_eq (d1, h1) (d2, h2) hne]
  constructor
  · intro hok
    by_contra hcon
    push_neg at hcon
    have hnil : offsetsList h1 h2 = [] := offsetsList_nil_of_no_shared h1 h2 hcon
    have hmax : maxOffsetOf h1 h2 = 0 := by
      rw [maxOffsetOf, hnil]
      rfl
    rw [if_neg (by rw [hmax]; simp [SCORE_THRESHOLD])] at hok
    have hfb : false = true := by injection hok
    exact Bool.noConfusion hfb
  · rintro ⟨k, hk1, hk2⟩
    have hnenil : offsetsList h1 h2 ≠ [] :=
      offsetsList_ne_nil_of_shared h1 h2 k hk1 hk2 hv1 hv2
    have hpos : 1 ≤ maxOffsetOf h1 h2 := listMaxCount_pos _ hnenil
    have hcond : (maxOffsetOf h1 h2 : ℚ) / min d1 d2 > SCORE_THRESHOLD := by
      rw [SCORE_THRESHOLD]
      apply div_pos
      · exact_mod_cast Nat.lt_of_lt_of_le Nat.zero_lt_one hpos
      · exact hmin
    rw [if_pos hcond]

/-- Witness for `match_iff_shared_fingerprint` at two concrete tables
sharing the key [1]. -/
theorem match_iff_shared_fingerprint_witness :
    0 < min (1 : ℚ) 2 ∧
    (∀ p ∈ ([([1], [0])] : HashT), p.2 ≠ []) ∧
    (∀ p ∈ ([([1], [1])] : HashT), p.2 ≠ []) ∧
    (matchBool ((1 : ℚ), [([1], [0])]) ((2 : ℚ), [([1], [1])]) = .ok true ↔
      ∃ k, k ∈ keysOf [([1], [0])] ∧ k ∈ keysOf [([1], [1])]) :=
  ⟨by decide, by decide, by decide,
    match_iff_shared_fingerprint 1 2 [([1], [0])] [([1], [1])] (by decide) (by decide)
      (by decide)⟩

/-- C6: swapping the two fingerprint results negates every offset while
preserving its histogram count, hence preserves max_offset, and with
debug false the boolean verdict of match is identical in either
direction. -/
theorem match_symmetry (r1 r2 : ℚ × HashT)
    (hnd1 : NodupKeys r1.2) (hnd2 : NodupKeys r2.2) :
    (∀ o : ℤ, histogram r1.2 r2.2 o = histogram r2.2 r1.2 (-o)) ∧
    maxOffsetOf r1.2 r2.2 = maxOffsetOf r2.2 r1.2 ∧
    matchBool r1 r2 = matchBool r2 r1 := by
  refine ⟨?_, ?_, ?_⟩
  · intro o
    rw [histogram, histogram]
    exact histogram_symm_counts r1.2 r2.2 hnd1 hnd2 o
  · exact maxOffsetOf_symm r1.2 r2.2 hnd1 hnd2
  · simp only [matchBool]
    rw [maxOffsetOf_symm r1.2 r2.2 hnd1 hnd2, min_comm r1.1 r2.1]

/-- Witness for `match_symmetry` at two concrete well-formed tables. -/
theorem match_symmetry_witness :
    NodupKeys [([1], [0])] ∧
    NodupKeys [([1], [1]), ([2], [5])] ∧
    ((∀ o : ℤ, histogram [([1], [0])] [([1], [1]), ([2], [5])] o =
        histogram [([1], [1]), ([2], [5])] [([1], [0])] (-o)) ∧
     maxOffsetOf [([1], [0])] [([1], [1]), ([2], [5])] =
        maxOffsetOf [([1], [1]), ([2], [5])] [([1], [0])] ∧
     matchBool ((1 : ℚ), [([1], [0])]) ((2 : ℚ), [([1], [1]), ([2], [5])]) =
        matchBool ((2 : ℚ), [([1], [1]), ([2], [5])]) ((1 : ℚ), [([1], [0])])) :=
  ⟨by decide, by decide,
    match_symmetry ((1 : ℚ), [([1], [0])]) ((2 : ℚ), [([1], [1]), ([2], [5])])
      (by decide) (by decide)⟩

/-- C1: the offset histogram built by match contains, per entry of
file_a's table, exactly k1*k2 observations against file_b's list for
that key (zero when not shared), each observation counting the offset
c1 - c2 once, and max_offset is the largest histogram count, or 0 when
no key is shared. -/
theorem match_offset_histogram (d1 d2 : ℚ) (h1 h2 : HashT)
    (hmin : 0 < min d1 d2) :
    (offsetsList h1 h2).length =
      (h1.map (fun p => p.2.length * (lookupD p.1 h2).length)).sum ∧
    (∀ k cs1 cs2, lookupFp k h1 = some cs1 → lookupFp k h2 = some cs2 →
      (pairProd cs1 cs2).length = cs1.length * cs2.length) ∧
    (∀ o, histogram h1 h2 o =
      (h1.map (fun p => countPairsAt p.2 (lookupD p.1 h2) o)).sum) ∧
    (∀ o, histogram h1 h2 o ≤ maxOffsetOf h1 h2) ∧
    ((∀ k ∈ keysOf h1, k ∉ keysOf h2) → maxOffsetOf h1 h2 = 0) ∧
    (offsetsList h1 h2 ≠ [] → ∃ o, histogram h1 h2 o = maxOffsetOf h1 h2) := by
  refine ⟨length_offsetsList h1 h2, ?_, ?_, ?_, ?_, ?_⟩
  · intro k cs1 cs2 _ _
    exact pairProd_length cs1 cs2
  · intro o
    exact count_offsetsList h1 h2 o
  · intro o
    rw [histogram, maxOffsetOf]
    exact count_le_listMaxCount _ o
  · intro hno
    rw [maxOffsetOf, offsetsList_nil_of_no_shared h1 h2 hno]
    rfl
  · intro hne
    obtain ⟨o, _, heq⟩ := exists_count_eq_listMaxCount _ hne
    exact ⟨o, heq⟩

/-- Witness for `match_offset_histogram` at two concrete tables. -/
theorem match_offset_histogram_witness :
    0 < min (1 : ℚ) 2 ∧
    ((offsetsList [([1], [0, 2])] [([1], [1])]).length =
      (([([1], [0, 2])] : HashT).map
        (fun p => p.2.length * (lookupD p.1 [([1], [1])]).length)).sum ∧
     (∀ k cs1 cs2, lookupFp k [([1], [0, 2])] = some cs1 →
        lookupFp k [([1], [1])] = some cs2 →
        (pairProd cs1 cs2).length = cs1.length * cs2.length) ∧
     (∀ o, histogram [([1], [0, 2])] [([1], [1])] o =
        (([([1], [0, 2])] : HashT).map
          (fun p => countPairsAt p.2 (lookupD p.1 [([1], [1])]) o)).sum) ∧
     (∀ o, histogram [([1], [0, 2])] [([1], [1])] o ≤
        maxOffsetOf [([1], [0, 2])] [([1], [1])]) ∧
     ((∀ k ∈ keysOf [([1], [0, 2])], k ∉ keysOf [([1], [1])]) →
        maxOffsetOf [([1], [0, 2])] [([1], [1])] = 0) ∧
     (offsetsList [([1], [0, 2])] [([1], [1])] ≠ [] →
        ∃ o, histogram [([1], [0, 2])] [([1], [1])] o =
          maxOffsetOf [([1], [0, 2])] [([1], [1])])) :=
  ⟨by decide, match_offset_histogram 1 2 [([1], [0, 2])] [([1], [1])] (by decide)⟩
